import Mathlib

/-!
Verification of the clapmaker timing-and-scheduling engine.

Shallow embedding of the repository's core, translated from the source:

* `src/js/distributions.js` — the statistical distribution sampler
  (`normal`, `uniform`, `exponential`, `laplace`, `beta`, `sampleOffset`).
  Random draws from `Math.random()` are injected as explicit parameters
  (a JS double is a rational, but the distributions apply `Math.log`,
  `Math.sqrt`, `Math.cos`, so they are modelled over `ℝ`; `laplace`
  lands in `EReal` because `Math.log 0 = -Infinity` is reachable there).
* `src/unnamed/part_000` — the `AudioEngine` class: person registry
  (`regeneratePersons`), LOD subsampling (`samplePersons` and the
  `gainScale` computation of `scheduleBeat`), the per-beat clap loop
  (`scheduleBeat`), the event log (`logEvent`), the lookahead drain loop
  (`schedule`), and the `start` / `stop` timer discipline.  Engine-side
  quantities (clock instants, offsets in ms, person factors) are JS
  doubles, a subset of `ℚ`, and involve only field operations, so the
  engine is modelled over `ℚ`; the single `Math.sqrt` (LOD gain) lands
  in `ℝ`.

Timers: `setInterval` hands back an opaque id and keeps the callback
alive until `clearInterval`.  The engine model tracks the set of live
interval ids explicitly, since `start` stores only the latest id in
`schedulerTimer` while every live interval keeps firing.
-/

namespace Clapmaker

/-! ## Distribution sampler (src/js/distributions.js) -/

open Classical in
/-- The value produced by a `do { u = Math.random(); } while (u === 0)`
rejection loop, given the stream `r` of successive `Math.random()` draws:
the first draw that is not `0`.  If every draw is `0` the JS loop never
returns; the model returns `0` in that (probability-zero) case, and
theorems that depend on the loop's exit condition carry the termination
hypothesis `∃ n, r n ≠ 0`. -/
noncomputable def firstNonzero (r : ℕ → ℝ) : ℝ :=
  if h : ∃ n, r n ≠ 0 then r (Nat.find h) else 0

/-- Normal distribution via Box-Muller (`normal`, distributions.js:12-20).
`u1s` is the stream of draws feeding the `u1` rejection loop; `u2` is the
single draw for `u2`.  Returns `z * spread`. -/
noncomputable def normal (spread : ℝ) (u1s : ℕ → ℝ) (u2 : ℝ) : ℝ :=
  Real.sqrt (-2.0 * Real.log (firstNonzero u1s)) * Real.cos (2.0 * Real.pi * u2) * spread

/-- Uniform distribution over `[-spread, +spread]`
(`uniform`, distributions.js:27-29); `u` is the `Math.random()` draw. -/
noncomputable def uniform (spread u : ℝ) : ℝ :=
  (u - 0.5) * 2 * spread

/-- Centered exponential (`exponential`, distributions.js:37-45): random
sign from the `coin` draw, exponential magnitude from the first nonzero
draw of the stream `us` (the `do … while (u === 0)` loop). -/
noncomputable def exponential (spread coin : ℝ) (us : ℕ → ℝ) : ℝ :=
  if spread = 0 then 0
  else (if coin < 0.5 then -1 else 1) * (-(Real.log (firstNonzero us)) * spread / 2)

/-- JavaScript `Math.log` on a nonnegative argument: `Math.log 0` is
`-Infinity`, hence the codomain `EReal`.  (Negative arguments give `NaN`;
no call site in the model reaches one.) -/
noncomputable def jsLog (x : ℝ) : EReal :=
  if x = 0 then ⊥ else ((Real.log x : ℝ) : EReal)

/-- Laplace distribution (`laplace`, distributions.js:52-57): scale
`b = spread / sqrt 2`, one draw `u0` (the raw `Math.random()` value, so
`u = u0 - 0.5`), result `-b * sign u * log (1 - 2|u|)`.  There is no
rejection of the boundary draw, so `u0 = 0` reaches `log 0 = -Infinity`:
the codomain is `EReal`. -/
noncomputable def laplace (spread u0 : ℝ) : EReal :=
  if spread = 0 then 0
  else ((-(spread / Real.sqrt 2) * Real.sign (u0 - 0.5) : ℝ) : EReal)
    * jsLog (1 - 2 * |u0 - 0.5|)

/-- Beta distribution wrapper (`beta`, distributions.js:66-71): maps a
`Beta(alpha, beta)` sample `x ∈ [0,1]` to `[-spread, +spread]`.  The inner
`betaSample` draw is injected as the parameter `x`; when `spread = 0` the
function short-circuits before `betaSample` is ever called. -/
noncomputable def betaDist (spread x : ℝ) : ℝ :=
  if spread = 0 then 0 else (x * 2 - 1) * spread

/-- One bundle of `Math.random()` draws consumed by a single
`sampleOffset` call, one field per call site in distributions.js. -/
structure Draws where
  u1s : ℕ → ℝ
  u2 : ℝ
  uu : ℝ
  coin : ℝ
  us : ℕ → ℝ
  ul : ℝ
  x : ℝ

/-- Dispatcher (`sampleOffset`, distributions.js:144-153): selects the
distribution by name, falling back to `normal` for an unrecognized name.
The codomain is `EReal` because the `laplace` branch can produce
`-Infinity`; every other branch is a coerced real. -/
noncomputable def sampleOffset (type : String) (spread : ℝ) (d : Draws) : EReal :=
  if type = "normal" then ((normal spread d.u1s d.u2 : ℝ) : EReal)
  else if type = "uniform" then ((uniform spread d.uu : ℝ) : EReal)
  else if type = "exponential" then ((exponential spread d.coin d.us : ℝ) : EReal)
  else if type = "laplace" then laplace spread d.ul
  else if type = "beta" then ((betaDist spread d.x : ℝ) : EReal)
  else ((normal spread d.u1s d.u2 : ℝ) : EReal)

/-- C2: for every distribution kind — any `type` string, including the
five names and the fallback-to-`normal` default branch — and every bundle
of random draws, `sampleOffset` with `spread = 0` returns exactly `0`:
`exponential`, `laplace` and `beta` short-circuit on `spread === 0`, and
`normal` and `uniform` scale their variate by `spread`, so the product
vanishes whatever the draws are. -/
theorem sampleOffset_spread_zero (type : String) (d : Draws) :
    sampleOffset type 0 d = 0 := by
  simp [sampleOffset, normal, uniform, exponential, laplace, betaDist]

/-- C8: for positive `spread`, `exponential` returns the random sign chosen
by the `coin` draw times the magnitude `-ln u * spread / 2`, where `u` is
the first draw accepted by the `u === 0` rejection loop; that draw lies in
`(0, 1)`, so the logarithm is a (finite) negative real and the magnitude a
(finite) positive real — the result is always a real number, never an
infinity, in contrast with `laplace` (see the boundary-draw theorem). -/
theorem exponential_form (spread coin : ℝ) (us : ℕ → ℝ)
    (hs : 0 < spread) (hb : ∀ n, 0 ≤ us n ∧ us n < 1) (hex : ∃ n, us n ≠ 0) :
    0 < firstNonzero us ∧ firstNonzero us < 1 ∧
      exponential spread coin us =
        (if coin < 0.5 then -1 else 1) * (-(Real.log (firstNonzero us)) * spread / 2) ∧
      0 < -(Real.log (firstNonzero us)) * spread / 2 := by
  have hval : firstNonzero us = us (Nat.find (p := fun n => us n ≠ 0) hex) := by
    rw [firstNonzero, dif_pos hex]
  have hne : firstNonzero us ≠ 0 := by
    rw [hval]; exact Nat.find_spec (p := fun n => us n ≠ 0) hex
  have hpos : 0 < firstNonzero us := by
    rcases (hb (Nat.find (p := fun n => us n ≠ 0) hex)).1.lt_or_eq with h | h
    · rwa [hval]
    · exact absurd h.symm (hval ▸ hne)
  have hlt : firstNonzero us < 1 := by
    rw [hval]; exact (hb _).2
  have hlog : Real.log (firstNonzero us) < 0 := Real.log_neg hpos hlt
  refine ⟨hpos, hlt, ?_, ?_⟩
  · rw [exponential, if_neg hs.ne']
  · have : 0 < -(Real.log (firstNonzero us)) := by linarith
    positivity

/-- Witness for the exponential-form theorem: `spread = 1`, coin draw `0`,
uniform stream constantly `1/2`. -/
theorem exponential_form_witness :
    0 < firstNonzero (fun _ => (1 : ℝ) / 2) ∧ firstNonzero (fun _ => (1 : ℝ) / 2) < 1 ∧
      exponential 1 0 (fun _ => (1 : ℝ) / 2) =
        (if (0 : ℝ) < 0.5 then -1 else 1) *
          (-(Real.log (firstNonzero (fun _ => (1 : ℝ) / 2))) * 1 / 2) ∧
      0 < -(Real.log (firstNonzero (fun _ => (1 : ℝ) / 2))) * 1 / 2 :=
  exponential_form 1 0 (fun _ => (1 : ℝ) / 2) (by norm_num)
    (fun n => by norm_num) ⟨0, by norm_num⟩

/-- C10: `laplace` performs no rejection of the boundary draw.  A raw
`Math.random()` draw of exactly `0` gives `u = -0.5`, so `1 - 2|u| = 0`
and the JS computation `-b * sign u * log 0` is `(spread / sqrt 2) *
(-Infinity) = -Infinity` for every positive spread — unlike `normal` and
`exponential`, whose `do … while (u === 0)` loops make `log 0`
unreachable. -/
theorem laplace_boundary_draw_bot (spread : ℝ) (hs : 0 < spread) :
    laplace spread 0 = ⊥ := by
  rw [laplace, if_neg hs.ne']
  have habs : 1 - 2 * |(0 : ℝ) - 0.5| = 0 := by
    rw [show ((0 : ℝ) - 0.5) = -0.5 by norm_num, abs_of_neg (by norm_num : (-0.5 : ℝ) < 0)]
    norm_num
  have hsign : Real.sign ((0 : ℝ) - 0.5) = -1 := Real.sign_of_neg (by norm_num)
  rw [habs, jsLog, if_pos rfl, hsign]
  apply EReal.coe_mul_bot_of_pos
  have h2 : (0 : ℝ) < Real.sqrt 2 := Real.sqrt_pos.2 (by norm_num)
  have : 0 < spread / Real.sqrt 2 := div_pos hs h2
  nlinarith

/-- Witness for the laplace boundary-draw theorem at `spread = 1`. -/
theorem laplace_boundary_draw_bot_witness : laplace 1 0 = ⊥ :=
  laplace_boundary_draw_bot 1 (by norm_num)

/-! ## Engine constants

`constants.js` is imported by the engine but is not under `src/`; the
values below are therefore taken from the spec. -/

/-- Modelled from the spec: `constants.js` is missing from the sources;
§4.4 fixes the LOD crowd threshold at 200 clappers. -/
def LOD_CLAPPER_THRESHOLD : ℕ := 200

/-- Modelled from the spec: `constants.js` is missing from the sources;
§4.4 fixes the LOD sample size at 40 persons per beat. -/
def LOD_SAMPLE_COUNT : ℕ := 40

/-- Modelled from the spec: `constants.js` is missing from the sources;
§4.4 fixes the lookahead window at 0.1 s, i.e. 100 ms. -/
def LOOKAHEAD_MS : ℚ := 100

/-- Modelled from the spec: `constants.js` is missing from the sources;
§4.4 and §5 fix the scheduler polling interval at 25 ms. -/
def SCHEDULE_INTERVAL_MS : ℚ := 25

/-! ## Person registry (part_000:111-121) -/

/-- One simulated clapper (`regeneratePersons`, part_000:115-119).  All
JS numbers involved are doubles, hence rationals. -/
structure Person where
  variantIndex : ℕ
  pitchFactor : ℚ
  volumeFactor : ℚ
deriving DecidableEq

/-- Person registry regeneration (`regeneratePersons`, part_000:111-121):
replaces the whole pool with `count` fresh persons; `vr i`, `pr i`,
`vor i` are the three `Math.random()` draws of iteration `i`. -/
def regeneratePersons (count numVariants : ℕ) (vr pr vor : ℕ → ℚ) : List Person :=
  (List.range count).map fun i =>
    { variantIndex := (⌊vr i * numVariants⌋).toNat
      pitchFactor := 0.92 + pr i * 0.16
      volumeFactor := 0.6 + vor i * 0.4 }

/-! ## Event log (part_000:279-291) -/

/-- One entry of the shared event log (`logEvent`, part_000:280-285). -/
structure ClapEvent where
  beatTime : ℚ
  offsetMs : ℚ
  personIndex : ℕ
  timestamp : ℚ
deriving DecidableEq

/-- The event-log cap (`this.maxEvents = 5000`, part_000:35). -/
def maxEvents : ℕ := 5000

/-- JavaScript `arr.slice(-n)` for `n > 0`: the last `n` elements. -/
def sliceLast (n : ℕ) (l : List ClapEvent) : List ClapEvent :=
  l.drop (l.length - n)

/-- Event-log append (`logEvent`, part_000:279-291): push the event, then
if the log exceeds `maxEvents` keep only the most recent
`Math.floor(maxEvents * 0.7) = 3500` entries in one batch trim. -/
def logEvent (log : List ClapEvent) (e : ClapEvent) : List ClapEvent :=
  let l := log ++ [e]
  if maxEvents < l.length then sliceLast 3500 l else l

/-! ## Level-of-detail selection (part_000:219-225 and 261-274) -/

/-- Reject-on-collision index collection: the
`while (indices.size < count) indices.add(Math.floor(Math.random() * total))`
loop of `samplePersons` (part_000:266-269), with the stream of random
index draws supplied as the list `draws`.  Returns `none` when the
supplied draws run out before the set reaches `count` — the JS loop would
keep drawing; any draw list containing `count` distinct values
succeeds. -/
def fillIndices (count : ℕ) : List ℕ → Finset ℕ → Option (Finset ℕ)
  | [], s => if count ≤ s.card then some s else none
  | d :: rest, s => if count ≤ s.card then some s else fillIndices count rest (insert d s)

/-- Placeholder for an out-of-range `persons[i]` access; every index the
model produces is in range, since `Math.floor(Math.random() * total)`
is below `total`. -/
def person0 : Person := ⟨0, 1, 1⟩

/-- LOD subset draw (`samplePersons`, part_000:261-274): the whole pool
when it is no larger than `count`, else `count` distinct indices collected
through the set.  JS iterates a `Set` in insertion order; the model reads
the set out in increasing order, immaterial to size and distinctness. -/
def samplePersons (persons : List Person) (count : ℕ) (draws : List ℕ) :
    Option (List Person) :=
  if persons.length ≤ count then some persons
  else (fillIndices count draws ∅).map fun s =>
    (s.sort (· ≤ ·)).map fun i => persons.getD i person0

/-- The LOD selection of `scheduleBeat` (part_000:219-225): when
`clapperCount` exceeds the threshold, subsample `LOD_SAMPLE_COUNT` persons
and compensate with `gainScale = sqrt (clapperCount / LOD_SAMPLE_COUNT)`;
otherwise schedule `persons.slice(0, clapperCount)` at gain 1.  Both the
gate and the gain read the configured `clapperCount`, not the pool length;
`main.js` (part_001:95-101) keeps the two equal by regenerating the pool
on every count change. -/
noncomputable def lodSelect (clapperCount : ℕ) (persons : List Person) (draws : List ℕ) :
    Option (List Person) × ℝ :=
  if LOD_CLAPPER_THRESHOLD < clapperCount then
    (samplePersons persons LOD_SAMPLE_COUNT draws,
      Real.sqrt ((clapperCount : ℝ) / (LOD_SAMPLE_COUNT : ℝ)))
  else (some (persons.take clapperCount), 1)

/-! ## Per-beat scheduling (part_000:213-256) -/

/-- One instruction to the playback sink (part_000:239-251): a buffer
started at `max(clapTime, now)`, at the person's playback rate, with gain
`volumeFactor * gainScale`. -/
structure Emission where
  time : ℚ
  pitch : ℚ
  gain : ℝ
  buffer : ℕ

/-- The per-person loop of `scheduleBeat` (part_000:227-255).  `resolve`
is the sound-source resolver (`getBuffer`, part_000:128-155, abstracted at
its interface: person and beat number to optional buffer id); `offsets pi`
is the sampled offset in ms for batch position `pi` — the injected result
of the `sampleOffset` call; the source locals `offsetMs = offsets pi` and
`clapTime = beatTime + offsetMs / 1000` are inlined; the event log is
threaded through `logEvent`.  Returns the emissions and the updated
log. -/
noncomputable def scheduleBeatAux (resolve : Person → ℕ → Option ℕ) (offsets : ℕ → ℚ)
    (now wallNow beatTime : ℚ) (beatNumber : ℕ) (gainScale : ℝ) :
    ℕ → List Person → List ClapEvent → List Emission × List ClapEvent
  | _, [], log => ([], log)
  | pi, p :: rest, log =>
    if beatTime + offsets pi / 1000 < now - 0.1 then
      scheduleBeatAux resolve offsets now wallNow beatTime beatNumber gainScale (pi + 1) rest log
    else
      match resolve p beatNumber with
      | none =>
        scheduleBeatAux resolve offsets now wallNow beatTime beatNumber gainScale (pi + 1) rest
          log
      | some buf =>
        let r := scheduleBeatAux resolve offsets now wallNow beatTime beatNumber gainScale
          (pi + 1) rest (logEvent log ⟨beatTime, offsets pi, pi, wallNow⟩)
        (⟨max (beatTime + offsets pi / 1000) now, p.pitchFactor,
          (p.volumeFactor : ℝ) * gainScale, buf⟩ :: r.1, r.2)

/-- Everything `scheduleBeat` reads besides the engine's own scheduling
state: the configuration of `this.state`, the person pool, the resolver,
and the per-beat random draws (sampled offsets per batch position, LOD
index draws), indexed by beat number. -/
structure FireCtx where
  resolve : Person → ℕ → Option ℕ
  persons : List Person
  clapperCount : ℕ
  offsets : ℕ → ℕ → ℚ
  lodDraws : ℕ → List ℕ

/-- `scheduleBeat` (part_000:213-256): LOD selection, then the per-person
loop.  The `none` subset is the model artifact of an exhausted LOD draw
list and schedules nothing. -/
noncomputable def scheduleBeat (fc : FireCtx) (now wallNow beatTime : ℚ) (beatNumber : ℕ)
    (log : List ClapEvent) : List Emission × List ClapEvent :=
  let sel := lodSelect fc.clapperCount fc.persons (fc.lodDraws beatNumber)
  match sel.1 with
  | none => ([], log)
  | some ps =>
    scheduleBeatAux fc.resolve (fc.offsets beatNumber) now wallNow beatTime beatNumber sel.2
      0 ps log

/-! ## Lookahead scheduler (part_000:160-206) -/

/-- The lookahead drain loop of `schedule` (part_000:201-205):
`while (nextBeatTime < target) { scheduleBeat(nextBeatTime, currentBeat);
nextBeatTime += interval; currentBeat += 1 }`.  Returns the final
`nextBeatTime`, the final `currentBeat`, and the `(beatTime, beatNumber)`
pairs handed to `scheduleBeat`, in order.  The JS loop terminates only
for positive `interval` (`interval = 60 / bpm`, BPM in 40-240); the added
`0 < interval` conjunct makes the model total. -/
def scheduleLoop (target interval next : ℚ) (beat : ℕ) : ℚ × ℕ × List (ℚ × ℕ) :=
  if h : 0 < interval ∧ next < target then
    let r := scheduleLoop target interval (next + interval) (beat + 1)
    (r.1, r.2.1, (next, beat) :: r.2.2)
  else (next, beat, [])
termination_by (⌈(target - next) / interval⌉).toNat
decreasing_by
  have hi : 0 < interval := h.1
  have key : (target - (next + interval)) / interval = (target - next) / interval - 1 := by
    rw [show target - (next + interval) = target - next - interval by ring, sub_div,
      div_self hi.ne']
  rw [key, Int.ceil_sub_one]
  have hpos : 0 < (target - next) / interval := div_pos (by linarith [h.2]) hi
  have h1 : 1 ≤ ⌈(target - next) / interval⌉ := Int.ceil_pos.2 hpos
  omega

/-- The `AudioEngine` scheduling state (part_000:29-38), plus timer
bookkeeping: `handle` is `this.schedulerTimer` (the stored interval id,
`none` for JS `null`); `live` is the set of interval timers the browser
keeps firing — an id joins it at `setInterval` and leaves only through
`clearInterval`; `nextId` supplies fresh ids; `beats` is a history
variable recording every `(beatTime, beatNumber)` pair handed to
`scheduleBeat` during the current run, used to state temporal claims. -/
structure Engine where
  nextId : ℕ
  live : Finset ℕ
  handle : Option ℕ
  nextBeatTime : ℚ
  currentBeat : ℕ
  clapEvents : List ClapEvent
  beats : List (ℚ × ℕ)

/-- The engine as constructed (part_000:12-39). -/
def engine0 : Engine :=
  { nextId := 0, live := ∅, handle := none, nextBeatTime := 0, currentBeat := 0
    clapEvents := [], beats := [] }

/-- `start()` (part_000:160-171): set `nextBeatTime = now + 0.05`,
`currentBeat = 0`, clear the event log, install a fresh interval timer
and store its id.  There is no guard: an already-installed interval is
neither detected nor cleared, so its id stays in `live` and only the new
id is remembered.  (The `audioCtx` null-check and `resume()` concern the
external audio context, not the scheduling state.) -/
def Engine.start (now : ℚ) (e : Engine) : Engine :=
  { e with nextBeatTime := now + 0.05, currentBeat := 0, clapEvents := []
           handle := some e.nextId, live := insert e.nextId e.live, nextId := e.nextId + 1
           beats := [] }

/-- `stop()` (part_000:176-181): if a timer id is stored, clear that one
interval and null the field; otherwise do nothing.  No other field is
touched. -/
def Engine.stop (e : Engine) : Engine :=
  match e.handle with
  | some h => { e with live := e.live.erase h, handle := none }
  | none => e

/-- `schedule()` (part_000:197-206), the body of the periodic tick: drain
every beat with `nextBeatTime < now + lookahead`, handing each to
`scheduleBeat` and folding the produced log entries into the event
log. -/
noncomputable def Engine.tick (fc : FireCtx) (now bpm wallNow : ℚ) (e : Engine) : Engine :=
  let interval := 60 / bpm
  let r := scheduleLoop (now + LOOKAHEAD_MS / 1000) interval e.nextBeatTime e.currentBeat
  { e with nextBeatTime := r.1, currentBeat := r.2.1
           clapEvents :=
             r.2.2.foldl (fun lg b => (scheduleBeat fc now wallNow b.1 b.2 lg).2) e.clapEvents
           beats := e.beats ++ r.2.2 }

/-- External stimuli: the public transitions `start` / `stop`, and the
firing of the interval timer with a given id — the browser fires every id
in `live`; a fire of a cleared id does nothing. -/
inductive Ev where
  | start (now : ℚ)
  | stop
  | fire (id : ℕ) (now bpm wallNow : ℚ) (fc : FireCtx)

/-- Whether a stimulus is a `start()` call. -/
def Ev.isStart : Ev → Prop
  | .start _ => True
  | _ => False

/-- One engine step under a stimulus. -/
noncomputable def step (e : Engine) : Ev → Engine
  | .start now => e.start now
  | .stop => e.stop
  | .fire id now bpm wallNow fc => if id ∈ e.live then e.tick fc now bpm wallNow else e

/-- A whole stimulus sequence. -/
noncomputable def run (e : Engine) (evs : List Ev) : Engine := evs.foldl step e

/-- A trivial scheduling context for concrete runs: empty pool, resolver
always silent, zero offsets. -/
def fc0 : FireCtx :=
  { resolve := fun _ _ => none, persons := [], clapperCount := 0
    offsets := fun _ _ => 0, lodDraws := fun _ => [] }

/-! ## Person registry: claim C7 -/

/-- C7: `regeneratePersons` replaces the pool with exactly `count`
persons, and whatever the `[0,1)` random draws, every person has
`variantIndex` in `[0, numVariants)`, `pitchFactor` in `[0.92, 1.08]`
and `volumeFactor` in `[0.6, 1.0]`. -/
theorem regeneratePersons_spec (count numVariants : ℕ) (vr pr vor : ℕ → ℚ)
    (hn : 0 < numVariants)
    (hv : ∀ i, 0 ≤ vr i ∧ vr i < 1) (hp : ∀ i, 0 ≤ pr i ∧ pr i < 1)
    (hvo : ∀ i, 0 ≤ vor i ∧ vor i < 1) :
    (regeneratePersons count numVariants vr pr vor).length = count ∧
      ∀ p ∈ regeneratePersons count numVariants vr pr vor,
        p.variantIndex < numVariants ∧
        0.92 ≤ p.pitchFactor ∧ p.pitchFactor ≤ 1.08 ∧
        0.6 ≤ p.volumeFactor ∧ p.volumeFactor ≤ 1 := by
  refine ⟨by simp [regeneratePersons], ?_⟩
  intro p hmem
  simp only [regeneratePersons, List.mem_map, List.mem_range] at hmem
  obtain ⟨i, -, rfl⟩ := hmem
  have hnq : (0 : ℚ) < numVariants := by exact_mod_cast hn
  refine ⟨?_, ?_, ?_, ?_, ?_⟩
  · have hfl : ⌊vr i * (numVariants : ℚ)⌋ < (numVariants : ℤ) := by
      apply Int.floor_lt.2
      push_cast
      nlinarith [(hv i).1, (hv i).2]
    exact (Int.toNat_lt' hn.ne').2 hfl
  · have := mul_nonneg (hp i).1 (by norm_num : (0 : ℚ) ≤ 0.16)
    simp only
    linarith
  · have : pr i * 0.16 ≤ 0.16 := by nlinarith [(hp i).1, (hp i).2]
    simp only
    linarith
  · have := mul_nonneg (hvo i).1 (by norm_num : (0 : ℚ) ≤ 0.4)
    simp only
    linarith
  · have : vor i * 0.4 ≤ 0.4 := by nlinarith [(hvo i).1, (hvo i).2]
    simp only
    linarith

/-- Witness: two persons over three variants, all draws `1/2`. -/
theorem regeneratePersons_spec_witness :
    (regeneratePersons 2 3 (fun _ => 1/2) (fun _ => 1/2) (fun _ => 1/2)).length = 2 ∧
      ∀ p ∈ regeneratePersons 2 3 (fun _ => 1/2) (fun _ => 1/2) (fun _ => 1/2),
        p.variantIndex < 3 ∧
        0.92 ≤ p.pitchFactor ∧ p.pitchFactor ≤ 1.08 ∧
        0.6 ≤ p.volumeFactor ∧ p.volumeFactor ≤ 1 :=
  regeneratePersons_spec 2 3 _ _ _ (by norm_num) (fun _ => by norm_num)
    (fun _ => by norm_num) (fun _ => by norm_num)

/-! ## Event log: claim C4 -/

/-- A single append leaves the log within the cap, whatever the prior
length. -/
theorem logEvent_length_le (log : List ClapEvent) (e : ClapEvent) :
    (logEvent log e).length ≤ maxEvents := by
  simp only [logEvent, sliceLast, maxEvents]
  split <;> rename_i h <;> simp only [List.length_drop, List.length_append,
    List.length_singleton] at h ⊢ <;> omega

/-- C4: after every append the event log holds at most `maxEvents = 5000`
entries, for any nonempty sequence of appended events from any starting
log; and whenever an append triggers the trim, the result is exactly the
`⌊5000 * 0.7⌋ = 3500` most recent entries — a suffix, of length 3500, of
the log with the new event pushed. -/
theorem logEvent_cap (init : List ClapEvent) (evs : List ClapEvent) (e : ClapEvent) :
    (evs ≠ [] → (evs.foldl logEvent init).length ≤ maxEvents) ∧
      (maxEvents < init.length + 1 →
        (logEvent init e).length = 3500 ∧ logEvent init e <:+ init ++ [e]) := by
  constructor
  · intro hne
    induction evs generalizing init with
    | nil => exact absurd rfl hne
    | cons a rest ih =>
      rcases rest with - | ⟨b, rest'⟩
      · simpa using logEvent_length_le init a
      · simpa using ih (logEvent init a) (by simp)
  · intro hlen
    have hcond : maxEvents < (init ++ [e]).length := by
      simpa using hlen
    have heq : logEvent init e = sliceLast 3500 (init ++ [e]) := by
      show (if maxEvents < (init ++ [e]).length then sliceLast 3500 (init ++ [e])
        else init ++ [e]) = sliceLast 3500 (init ++ [e])
      rw [if_pos hcond]
    constructor
    · rw [heq]
      simp only [sliceLast, List.length_drop, List.length_append, List.length_singleton]
      simp only [maxEvents] at hlen
      omega
    · rw [heq]
      exact List.drop_suffix _ _

/-- Witness: appending to a log already at the cap trims it to the 3500
most recent entries, and a one-event append sequence respects the cap. -/
theorem logEvent_cap_witness :
    (([⟨0, 0, 0, 0⟩] : List ClapEvent).foldl logEvent
        (List.replicate 5000 (⟨0, 0, 0, 0⟩ : ClapEvent))).length ≤ maxEvents ∧
      (logEvent (List.replicate 5000 (⟨0, 0, 0, 0⟩ : ClapEvent)) ⟨0, 0, 0, 0⟩).length = 3500 := by
  have h := logEvent_cap (List.replicate 5000 (⟨0, 0, 0, 0⟩ : ClapEvent))
    [⟨0, 0, 0, 0⟩] ⟨0, 0, 0, 0⟩
  refine ⟨h.1 (by intro hc; exact List.noConfusion hc), (h.2 ?_).1⟩
  rw [List.length_replicate, maxEvents]
  norm_num

/-! ## Timer discipline: claims C1 and C9 -/

/-- C1 (refuting the guard): `start()` installs a new interval timer
without clearing the previously installed one — `schedulerTimer` is
overwritten, the old id is lost, and the old interval keeps firing.
After `start(); start()` two periodic tick timers are live
simultaneously, and after the subsequent `stop()` (which clears only the
stored id) one pending periodic callback is still alive. -/
theorem start_start_stop_leaks_timer :
    (run engine0 [Ev.start 0, Ev.start 0]).live.card = 2 ∧
      (run engine0 [Ev.start 0, Ev.start 0, Ev.stop]).live.card = 1 := by
  constructor <;> decide

/-- An engine with no stored handle and no live timer is inert: any
stimulus sequence free of `start()` leaves it exactly in place. -/
theorem run_dead (e : Engine) (hh : e.handle = none) (hl : e.live = ∅) :
    ∀ evs : List Ev, (∀ ev ∈ evs, ¬ ev.isStart) → run e evs = e := by
  intro evs hevs
  induction evs with
  | nil => rfl
  | cons ev rest ih =>
    have hstep : step e ev = e := by
      cases ev with
      | start now =>
        exact absurd (show (Ev.start now).isStart from trivial)
          (hevs (Ev.start now) (List.mem_cons_self _ _))
      | stop => simp [step, Engine.stop, hh]
      | fire id now bpm wallNow fc => simp [step, hl]
    show run (step e ev) rest = e
    rw [hstep]
    exact ih fun ev' hev' => hevs ev' (List.mem_cons_of_mem _ hev')

/-- C9: `stop()` cancels the periodic tick and mutates nothing else.
From a well-formed running state — the stored handle is the single live
timer — `stop()` leaves `nextBeatTime`, `currentBeat`, the event log and
the beat history exactly as they were; no timer remains live, so they
stay unchanged under any further timer fires or `stop()` calls until the
next `start()`. -/
theorem stop_frame (e : Engine) (t : ℕ) (hh : e.handle = some t) (hl : e.live = {t}) :
    e.stop.nextBeatTime = e.nextBeatTime ∧ e.stop.currentBeat = e.currentBeat ∧
      e.stop.clapEvents = e.clapEvents ∧ e.stop.beats = e.beats ∧
      e.stop.live = ∅ ∧
      ∀ evs : List Ev, (∀ ev ∈ evs, ¬ ev.isStart) →
        (run e.stop evs).nextBeatTime = e.nextBeatTime ∧
          (run e.stop evs).currentBeat = e.currentBeat ∧
          (run e.stop evs).clapEvents = e.clapEvents ∧
          (run e.stop evs).beats = e.beats := by
  have hstop : e.stop = { e with live := e.live.erase t, handle := none } := by
    simp [Engine.stop, hh]
  have hlive : e.stop.live = ∅ := by
    rw [hstop]
    simp [hl]
  refine ⟨by rw [hstop], by rw [hstop], by rw [hstop], by rw [hstop], hlive, ?_⟩
  intro evs hevs
  rw [run_dead e.stop (by rw [hstop]) hlive evs hevs, hstop]
  exact ⟨rfl, rfl, rfl, rfl⟩

/-- Witness: a freshly started engine, stopped, then hit by a stray timer
fire and another `stop()` — the scheduling state stays frozen. -/
theorem stop_frame_witness :
    (run (Engine.start 0 engine0).stop [Ev.fire 0 1 120 0 fc0, Ev.stop]).nextBeatTime
        = (Engine.start 0 engine0).nextBeatTime ∧
      (run (Engine.start 0 engine0).stop [Ev.fire 0 1 120 0 fc0, Ev.stop]).currentBeat
        = (Engine.start 0 engine0).currentBeat := by
  have h := stop_frame (Engine.start 0 engine0) 0 rfl (by decide)
  have h6 := h.2.2.2.2.2 [Ev.fire 0 1 120 0 fc0, Ev.stop] (by
    intro ev hev
    simp only [List.mem_cons, List.not_mem_nil, or_false] at hev
    rcases hev with rfl | rfl <;> simp [Ev.isStart])
  exact ⟨h6.1, h6.2.1⟩

/-! ## Level-of-detail selection: claim C3 -/

/-- When the collision loop completes, the index set holds exactly `count`
indices (the loop starts at or below `count` and inserts one at a time). -/
theorem fillIndices_card (count : ℕ) :
    ∀ (draws : List ℕ) (s t : Finset ℕ), s.card ≤ count →
      fillIndices count draws s = some t → t.card = count := by
  intro draws
  induction draws with
  | nil =>
    intro s t hle h
    simp only [fillIndices] at h
    split at h
    · rename_i hc
      cases h
      omega
    · exact absurd h (by simp)
  | cons d rest ih =>
    intro s t hle h
    simp only [fillIndices] at h
    split at h
    · rename_i hc
      cases h
      omega
    · rename_i hc
      push_neg at hc
      refine ih _ t ?_ h
      have := Finset.card_insert_le d s
      omega

/-- Every index the collision loop collects comes from the draw stream or
the starting set, hence stays below the pool size. -/
theorem fillIndices_mem (count total : ℕ) :
    ∀ (draws : List ℕ) (s t : Finset ℕ), (∀ d ∈ draws, d < total) →
      (∀ i ∈ s, i < total) → fillIndices count draws s = some t → ∀ i ∈ t, i < total := by
  intro draws
  induction draws with
  | nil =>
    intro s t _ hs h
    simp only [fillIndices] at h
    split at h
    · cases h
      exact hs
    · exact absurd h (by simp)
  | cons d rest ih =>
    intro s t hd hs h
    simp only [fillIndices] at h
    split at h
    · cases h
      exact hs
    · refine ih _ t (fun d' hd' => hd d' (List.mem_cons_of_mem _ hd')) ?_ h
      intro i hi
      rcases Finset.mem_insert.1 hi with rfl | hi'
      · exact hd i (List.mem_cons_self _ _)
      · exact hs i hi'

/-- C3 counterexample: a pool of 100 persons is larger than the sample
count 40, yet the engine schedules the whole pool of 100 at
`gainScale = 1` — not 40 distinct persons at `gainScale = sqrt (100/40)`
as the claim requires of every pool larger than the sample count — because
the code gates LOD on the 200-clapper threshold, not on the sample
count. -/
theorem lodSelect_pool100_counterexample :
    (lodSelect (List.replicate 100 person0).length (List.replicate 100 person0) []).1
        = some (List.replicate 100 person0) ∧
      (lodSelect (List.replicate 100 person0).length (List.replicate 100 person0) []).2 = 1 ∧
      ¬ ((lodSelect (List.replicate 100 person0).length (List.replicate 100 person0) []).1.map
          List.length = some LOD_SAMPLE_COUNT) ∧
      (lodSelect (List.replicate 100 person0).length (List.replicate 100 person0) []).2
        ≠ Real.sqrt (((List.replicate 100 person0).length : ℝ) / (LOD_SAMPLE_COUNT : ℝ)) := by
  have hsel : lodSelect (List.replicate 100 person0).length (List.replicate 100 person0) []
      = (some (List.replicate 100 person0), 1) := by
    rw [lodSelect, if_neg (by simp [LOD_CLAPPER_THRESHOLD])]
    simp
  refine ⟨by rw [hsel], by rw [hsel], ?_, ?_⟩
  · rw [hsel]
    simp [LOD_SAMPLE_COUNT]
  · rw [hsel]
    intro h
    have : ((List.replicate 100 person0).length : ℝ) / (LOD_SAMPLE_COUNT : ℝ) = 1 :=
      Real.sqrt_eq_one.1 h.symm
    rw [List.length_replicate, LOD_SAMPLE_COUNT] at this
    norm_num at this

/-- C3 (amended): the LOD gate is the 200-clapper threshold, not the
sample count.  With the pool equal to the clapper count (the registry
invariant maintained by `main.js`): a pool of at most 200 persons is
scheduled whole at `gainScale = 1`, even when it exceeds the sample count
40; a pool of more than 200 persons gets
`gainScale = sqrt (pool.length / 40)`, and whenever the collision loop
completes, the scheduled subset consists of exactly 40 persons drawn at
pairwise-distinct in-range indices — in particular a 500-person pool
yields exactly 40 distinct persons and `gainScale = sqrt (500/40)`. -/
theorem lodSelect_spec (persons : List Person) (draws : List ℕ)
    (hd : ∀ d ∈ draws, d < persons.length) :
    (persons.length ≤ LOD_CLAPPER_THRESHOLD →
      lodSelect persons.length persons draws = (some persons, 1)) ∧
    (LOD_CLAPPER_THRESHOLD < persons.length →
      (lodSelect persons.length persons draws).2
          = Real.sqrt ((persons.length : ℝ) / (LOD_SAMPLE_COUNT : ℝ)) ∧
        ∀ l, (lodSelect persons.length persons draws).1 = some l →
          ∃ idxs : List ℕ, idxs.Nodup ∧ idxs.length = LOD_SAMPLE_COUNT ∧
            (∀ i ∈ idxs, i < persons.length) ∧
            l = idxs.map fun i => persons.getD i person0) := by
  constructor
  · intro hle
    rw [lodSelect, if_neg (not_lt.2 hle)]
    simp
  · intro hgt
    have hsel : lodSelect persons.length persons draws
        = (samplePersons persons LOD_SAMPLE_COUNT draws,
            Real.sqrt ((persons.length : ℝ) / (LOD_SAMPLE_COUNT : ℝ))) := by
      rw [lodSelect, if_pos hgt]
    refine ⟨by rw [hsel], ?_⟩
    intro l hl
    rw [hsel] at hl
    simp only at hl
    have hbig : ¬ persons.length ≤ LOD_SAMPLE_COUNT := by
      simp only [LOD_CLAPPER_THRESHOLD] at hgt
      simp only [LOD_SAMPLE_COUNT]
      omega
    rw [samplePersons, if_neg hbig, Option.map_eq_some'] at hl
    obtain ⟨s, hs, rfl⟩ := hl
    refine ⟨s.sort (· ≤ ·), Finset.sort_nodup _ _, ?_, ?_, rfl⟩
    · rw [Finset.length_sort]
      exact fillIndices_card LOD_SAMPLE_COUNT draws ∅ s (by simp) hs
    · intro i hi
      exact fillIndices_mem LOD_SAMPLE_COUNT persons.length draws ∅ s hd (by simp) hs i
        ((Finset.mem_sort _).1 hi)

/-- Witness: a 500-person pool with the draw stream `0, 1, …, 39` — the
LOD branch fires, the gain is `sqrt (500/40)`, and the selected subset is
40 persons at 40 distinct in-range indices. -/
theorem lodSelect_spec_witness :
    (lodSelect (List.replicate 500 person0).length (List.replicate 500 person0)
          (List.range 40)).2
        = Real.sqrt (((List.replicate 500 person0).length : ℝ) / (LOD_SAMPLE_COUNT : ℝ)) ∧
      ∃ l, (lodSelect (List.replicate 500 person0).length (List.replicate 500 person0)
            (List.range 40)).1 = some l ∧
        ∃ idxs : List ℕ, idxs.Nodup ∧ idxs.length = LOD_SAMPLE_COUNT ∧
          (∀ i ∈ idxs, i < (List.replicate 500 person0).length) ∧
          l = idxs.map fun i => (List.replicate 500 person0).getD i person0 := by
  have h := (lodSelect_spec (List.replicate 500 person0) (List.range 40) (by
    intro d hd
    simp only [List.mem_range] at hd
    rw [List.length_replicate]
    omega)).2 (by
    rw [List.length_replicate, LOD_CLAPPER_THRESHOLD]
    norm_num)
  refine ⟨h.1, ?_⟩
  have hfill : (fillIndices LOD_SAMPLE_COUNT (List.range 40) ∅).isSome = true := by decide
  obtain ⟨s, hs⟩ := Option.isSome_iff_exists.1 hfill
  have hsome : (lodSelect (List.replicate 500 person0).length (List.replicate 500 person0)
      (List.range 40)).1
      = some ((s.sort (· ≤ ·)).map fun i => (List.replicate 500 person0).getD i person0) := by
    rw [lodSelect, if_pos (by rw [List.length_replicate, LOD_CLAPPER_THRESHOLD]; norm_num)]
    simp only
    rw [samplePersons,
      if_neg (by rw [List.length_replicate, LOD_SAMPLE_COUNT]; norm_num), hs]
    rfl
  exact ⟨_, hsome, h.2 _ hsome⟩

/-! ## Per-beat scheduling: claim C6 -/

/-- C6: the per-person behavior of the `scheduleBeat` loop at any batch
position.  A clap instant more than 0.1 s in the past drops the event
silently — nothing is emitted, nothing is logged, and the rest of the
batch is processed exactly as if the person were absent; an unresolved
buffer skips the event the same way; otherwise the clap is emitted at
`max (clapInstant, now)` with the person's playback rate and LOD-scaled
volume, and the event is appended to the log with the nominal beat time,
the sampled offset, and the batch position. -/
theorem scheduleBeat_person_cases (resolve : Person → ℕ → Option ℕ) (offsets : ℕ → ℚ)
    (now wallNow beatTime : ℚ) (beatNumber : ℕ) (gainScale : ℝ) (pi : ℕ) (p : Person)
    (rest : List Person) (log : List ClapEvent) :
    (beatTime + offsets pi / 1000 < now - 0.1 →
      scheduleBeatAux resolve offsets now wallNow beatTime beatNumber gainScale
          pi (p :: rest) log
        = scheduleBeatAux resolve offsets now wallNow beatTime beatNumber gainScale
            (pi + 1) rest log) ∧
    (¬ beatTime + offsets pi / 1000 < now - 0.1 → resolve p beatNumber = none →
      scheduleBeatAux resolve offsets now wallNow beatTime beatNumber gainScale
          pi (p :: rest) log
        = scheduleBeatAux resolve offsets now wallNow beatTime beatNumber gainScale
            (pi + 1) rest log) ∧
    (∀ buf, ¬ beatTime + offsets pi / 1000 < now - 0.1 → resolve p beatNumber = some buf →
      scheduleBeatAux resolve offsets now wallNow beatTime beatNumber gainScale
          pi (p :: rest) log
        = (⟨max (beatTime + offsets pi / 1000) now, p.pitchFactor,
              (p.volumeFactor : ℝ) * gainScale, buf⟩ ::
            (scheduleBeatAux resolve offsets now wallNow beatTime beatNumber gainScale
              (pi + 1) rest (logEvent log ⟨beatTime, offsets pi, pi, wallNow⟩)).1,
           (scheduleBeatAux resolve offsets now wallNow beatTime beatNumber gainScale
              (pi + 1) rest (logEvent log ⟨beatTime, offsets pi, pi, wallNow⟩)).2)) := by
  refine ⟨?_, ?_, ?_⟩
  · intro hpast
    rw [scheduleBeatAux, if_pos hpast]
  · intro hfut hres
    rw [scheduleBeatAux, if_neg hfut, hres]
  · intro buf hfut hres
    rw [scheduleBeatAux, if_neg hfut, hres]

/-- Witness: the three branches at concrete inputs — an offset of
`-10000` ms drops the event; a silent resolver skips it; a resolver
returning buffer `7` emits at `max (clapTime, now)` and logs the entry. -/
theorem scheduleBeat_person_cases_witness :
    (scheduleBeatAux (fun _ _ => some 7) (fun _ => -10000) 0 0 0 0 1 0 [person0] []
        = scheduleBeatAux (fun _ _ => some 7) (fun _ => -10000) 0 0 0 0 1 1 [] []) ∧
    (scheduleBeatAux (fun _ _ => none) (fun _ => 0) 0 0 0 0 1 0 [person0] []
        = scheduleBeatAux (fun _ _ => none) (fun _ => 0) 0 0 0 0 1 1 [] []) ∧
    (scheduleBeatAux (fun _ _ => some 7) (fun _ => 0) 0 0 0 0 1 0 [person0] []
        = (⟨max (0 + (0 : ℚ) / 1000) 0, person0.pitchFactor,
              (person0.volumeFactor : ℝ) * 1, 7⟩ ::
            (scheduleBeatAux (fun _ _ => some 7) (fun _ => 0) 0 0 0 0 1 1 []
              (logEvent [] ⟨0, 0, 0, 0⟩)).1,
           (scheduleBeatAux (fun _ _ => some 7) (fun _ => 0) 0 0 0 0 1 1 []
              (logEvent [] ⟨0, 0, 0, 0⟩)).2)) := by
  refine ⟨?_, ?_, ?_⟩
  · exact (scheduleBeat_person_cases (fun _ _ => some 7) (fun _ => -10000) 0 0 0 0 1 0
      person0 [] []).1 (by norm_num)
  · exact (scheduleBeat_person_cases (fun _ _ => none) (fun _ => 0) 0 0 0 0 1 0
      person0 [] []).2.1 (by norm_num) rfl
  · exact (scheduleBeat_person_cases (fun _ _ => some 7) (fun _ => 0) 0 0 0 0 1 0
      person0 [] []).2.2 7 (by norm_num) rfl

/-! ## Lookahead drain loop and whole runs: claim C5 -/

/-- Drain-loop characterization: for a positive interval the loop emits
the arithmetic progression of the beats below the target — beat `i` of
the batch at `next + i * interval` with beat number `beat + i` — running
exactly `(⌈(target - next) / interval⌉).toNat` times, and leaves the
state just past the window. -/
theorem scheduleLoop_spec (target interval : ℚ) (hi : 0 < interval) :
    ∀ (k : ℕ) (next : ℚ) (beat : ℕ), (⌈(target - next) / interval⌉).toNat = k →
      scheduleLoop target interval next beat
        = (next + k * interval, beat + k,
            (List.range k).map fun i : ℕ => (next + (i : ℚ) * interval, beat + i)) := by
  intro k
  induction k with
  | zero =>
    intro next beat hk
    have hle : ⌈(target - next) / interval⌉ ≤ 0 := Int.toNat_eq_zero.1 hk
    have hnlt : ¬ next < target := by
      intro hlt
      have hpos : 0 < (target - next) / interval := div_pos (by linarith) hi
      have := Int.ceil_pos.2 hpos
      omega
    rw [scheduleLoop.eq_def, dif_neg (by tauto)]
    simp
  | succ k ih =>
    intro next beat hk
    have hcpos : 1 ≤ ⌈(target - next) / interval⌉ := by omega
    have hlt : next < target := by
      by_contra hnl
      push_neg at hnl
      have harg : (target - next) / interval ≤ 0 :=
        div_nonpos_iff.2 (Or.inr ⟨by linarith, hi.le⟩)
      have : ⌈(target - next) / interval⌉ ≤ 0 := by
        rw [show (0 : ℤ) = ⌈(0 : ℚ)⌉ by simp]
        exact Int.ceil_mono harg
      omega
    rw [scheduleLoop.eq_def, dif_pos ⟨hi, hlt⟩]
    have hk' : (⌈(target - (next + interval)) / interval⌉).toNat = k := by
      have key : (target - (next + interval)) / interval = (target - next) / interval - 1 := by
        rw [show target - (next + interval) = target - next - interval by ring, sub_div,
          div_self hi.ne']
      rw [key, Int.ceil_sub_one]
      omega
    simp only [ih (next + interval) (beat + 1) hk', Prod.mk.injEq]
    refine ⟨by push_cast; ring, by omega, ?_⟩
    rw [List.range_succ_eq_map, List.map_cons, List.map_map]
    simp only [Nat.cast_zero, zero_mul, add_zero]
    congr 1
    congr 1
    funext i
    simp only [Function.comp_apply, Prod.mk.injEq]
    refine ⟨by push_cast; ring, by omega⟩

/-- Appending one stimulus to a run. -/
theorem run_snoc (e : Engine) (evs : List Ev) (ev : Ev) :
    run e (evs ++ [ev]) = step (run e evs) ev := by
  simp [run, List.foldl_append]

/-- The stimuli of one simulated run: `start` at `t0`, then `m` fires of
the installed interval timer at the 25 ms polling period, at fixed
BPM. -/
def runEvs (t0 bpm wallNow : ℚ) (fc : FireCtx) (m : ℕ) : List Ev :=
  Ev.start t0 :: ((List.range m).map fun j : ℕ =>
    Ev.fire 0 (t0 + ((j : ℚ) + 1) * (SCHEDULE_INTERVAL_MS / 1000)) bpm wallNow fc)

/-- The number of beats such a run has scheduled after `m` fires: zero
before the first fire, and afterwards the count of beat slots
`0.05 + i * (60/bpm)` that fall below the last tick's lookahead target
`m * 0.025 + 0.1`, namely `⌈(m * 0.025 + 0.1 - 0.05) / (60/bpm)⌉⁺`. -/
def beatCount (bpm : ℚ) (m : ℕ) : ℕ :=
  if m = 0 then 0
  else (⌈((m : ℚ) * (SCHEDULE_INTERVAL_MS / 1000) + LOOKAHEAD_MS / 1000 - 0.05)
    / (60 / bpm)⌉).toNat

/-- Run invariant: after `start` and `m` timer fires the single installed
timer is live, the scheduled beats are exactly beat numbers
`0, …, beatCount - 1` at times `t0 + 0.05 + i * (60/bpm)`, and the
scheduling state sits just past the drained window. -/
theorem run_state (t0 bpm wallNow : ℚ) (fc : FireCtx) (hb : 0 < bpm) :
    ∀ m : ℕ,
      (run engine0 (runEvs t0 bpm wallNow fc m)).live = {0} ∧
      (run engine0 (runEvs t0 bpm wallNow fc m)).handle = some 0 ∧
      (run engine0 (runEvs t0 bpm wallNow fc m)).nextBeatTime
          = t0 + 0.05 + (beatCount bpm m : ℚ) * (60 / bpm) ∧
      (run engine0 (runEvs t0 bpm wallNow fc m)).currentBeat = beatCount bpm m ∧
      (run engine0 (runEvs t0 bpm wallNow fc m)).beats
          = (List.range (beatCount bpm m)).map fun i : ℕ =>
              (t0 + 0.05 + (i : ℚ) * (60 / bpm), i) := by
  have hint : (0 : ℚ) < 60 / bpm := by positivity
  intro m
  induction m with
  | zero =>
    have hbc : beatCount bpm 0 = 0 := by simp [beatCount]
    rw [hbc]
    simp [runEvs, run, step, Engine.start, engine0]
  | succ m ih =>
    have hsplit : runEvs t0 bpm wallNow fc (m + 1)
        = runEvs t0 bpm wallNow fc m
          ++ [Ev.fire 0 (t0 + ((m : ℚ) + 1) * (SCHEDULE_INTERVAL_MS / 1000)) bpm wallNow fc] := by
      simp only [runEvs, List.range_succ, List.map_append, List.map_cons, List.map_nil]
      simp
    obtain ⟨ihl, ihh, ihn, ihc, ihb⟩ := ih
    rw [hsplit, run_snoc]
    have hstep : step (run engine0 (runEvs t0 bpm wallNow fc m))
        (Ev.fire 0 (t0 + ((m : ℚ) + 1) * (SCHEDULE_INTERVAL_MS / 1000)) bpm wallNow fc)
        = (run engine0 (runEvs t0 bpm wallNow fc m)).tick fc
            (t0 + ((m : ℚ) + 1) * (SCHEDULE_INTERVAL_MS / 1000)) bpm wallNow := by
      simp only [step]
      rw [if_pos (by rw [ihl]; exact Finset.mem_singleton_self 0)]
    rw [hstep]
    set c := beatCount bpm m with hc
    set A := ⌈(((m : ℚ) + 1) * (SCHEDULE_INTERVAL_MS / 1000) + LOOKAHEAD_MS / 1000 - 0.05)
      / (60 / bpm)⌉ with hA
    have hA1 : 1 ≤ A := by
      rw [hA]
      refine Int.ceil_pos.2 (div_pos ?_ hint)
      have h0 : (0 : ℚ) ≤ (m : ℚ) := Nat.cast_nonneg m
      have hx : (0 : ℚ) < ((m : ℚ) + 1) * (SCHEDULE_INTERVAL_MS / 1000) :=
        mul_pos (by linarith) (by rw [SCHEDULE_INTERVAL_MS]; norm_num)
      rw [LOOKAHEAD_MS]
      linarith
    have hcA : (c : ℤ) ≤ A := by
      rcases Nat.eq_zero_or_pos m with rfl | hm
      · have hc0 : c = 0 := by
          rw [hc]
          simp [beatCount]
        rw [hc0]
        omega
      · rw [hc, beatCount, if_neg hm.ne']
        have hs : (0 : ℚ) ≤ SCHEDULE_INTERVAL_MS / 1000 := by
          rw [SCHEDULE_INTERVAL_MS]
          norm_num
        have hnum : (m : ℚ) * (SCHEDULE_INTERVAL_MS / 1000) + LOOKAHEAD_MS / 1000 - 0.05
            ≤ ((m : ℚ) + 1) * (SCHEDULE_INTERVAL_MS / 1000) + LOOKAHEAD_MS / 1000 - 0.05 := by
          have := mul_le_mul_of_nonneg_right
            (by linarith : (m : ℚ) ≤ (m : ℚ) + 1) hs
          linarith
        have hmono := Int.ceil_mono (div_le_div_of_nonneg_right hnum hint.le)
        rw [← hA] at hmono
        omega
    set k := (A - (c : ℤ)).toNat with hk
    have hceil : (⌈(t0 + ((m : ℚ) + 1) * (SCHEDULE_INTERVAL_MS / 1000) + LOOKAHEAD_MS / 1000
        - (t0 + 0.05 + (c : ℚ) * (60 / bpm))) / (60 / bpm)⌉).toNat = k := by
      rw [show t0 + ((m : ℚ) + 1) * (SCHEDULE_INTERVAL_MS / 1000) + LOOKAHEAD_MS / 1000
          - (t0 + 0.05 + (c : ℚ) * (60 / bpm))
          = ((((m : ℚ) + 1) * (SCHEDULE_INTERVAL_MS / 1000) + LOOKAHEAD_MS / 1000 - 0.05)
            - (c : ℚ) * (60 / bpm)) by ring, sub_div, mul_div_assoc, div_self hint.ne',
        mul_one, Int.ceil_sub_nat, ← hA, hk]
    have hloop := scheduleLoop_spec
      (t0 + ((m : ℚ) + 1) * (SCHEDULE_INTERVAL_MS / 1000) + LOOKAHEAD_MS / 1000) (60 / bpm)
      hint k (t0 + 0.05 + (c : ℚ) * (60 / bpm)) c hceil
    have hck : c + k = beatCount bpm (m + 1) := by
      rw [beatCount, if_neg (Nat.succ_ne_zero m), hk]
      push_cast
      rw [← hA]
      omega
    simp only [Engine.tick]
    rw [ihn, ihc, hloop]
    refine ⟨ihl, ihh, ?_, ?_, ?_⟩
    · show t0 + 0.05 + (c : ℚ) * (60 / bpm) + (k : ℚ) * (60 / bpm)
        = t0 + 0.05 + (beatCount bpm (m + 1) : ℚ) * (60 / bpm)
      rw [← hck]
      push_cast
      ring
    · exact hck
    · show (run engine0 (runEvs t0 bpm wallNow fc m)).beats
          ++ (List.range k).map
            (fun i : ℕ => (t0 + 0.05 + (c : ℚ) * (60 / bpm) + (i : ℚ) * (60 / bpm), c + i))
        = (List.range (beatCount bpm (m + 1))).map
            fun i : ℕ => (t0 + 0.05 + (i : ℚ) * (60 / bpm), i)
      rw [ihb, ← hck, List.range_add, List.map_append, List.map_map]
      congr 1
      congr 1
      funext i
      simp only [Function.comp_apply, Prod.mk.injEq]
      refine ⟨by push_cast; ring, by first | omega | trivial⟩

/-- C5 (amended): every tick drains the lookahead window completely,
scheduling each beat at `nextBeatTime` with the current beat number and
advancing by exactly `60 / bpm` and 1 — after a run of `m ≥ 1` polling
ticks the scheduled beats are exactly beat numbers `0, …, n - 1` at the
pairwise-distinct times `t0 + 0.05 + i * (60 / bpm)`.  The count,
however, is `n = ⌈(m * 0.025 + 0.1 - 0.05) / (60 / bpm)⌉⁺` — every beat
slot inside the last tick's lookahead window — which the lead-in and
lookahead can push beyond `⌊duration / beatInterval⌋ ± 1` (see the
counterexample), so the claim's floor bound is amended to this exact
ceiling formula. -/
theorem run_beat_schedule (t0 bpm wallNow : ℚ) (fc : FireCtx) (m : ℕ)
    (hb : 0 < bpm) (hm : 1 ≤ m) :
    (run engine0 (runEvs t0 bpm wallNow fc m)).beats
        = (List.range ((⌈((m : ℚ) * (SCHEDULE_INTERVAL_MS / 1000) + LOOKAHEAD_MS / 1000
              - 0.05) / (60 / bpm)⌉).toNat)).map
            (fun i : ℕ => (t0 + 0.05 + (i : ℚ) * (60 / bpm), i)) ∧
      (run engine0 (runEvs t0 bpm wallNow fc m)).beats.length
          = (⌈((m : ℚ) * (SCHEDULE_INTERVAL_MS / 1000) + LOOKAHEAD_MS / 1000 - 0.05)
              / (60 / bpm)⌉).toNat ∧
      ((run engine0 (runEvs t0 bpm wallNow fc m)).beats.map Prod.fst).Nodup := by
  have hint : (0 : ℚ) < 60 / bpm := by positivity
  obtain ⟨-, -, -, -, hbeats⟩ := run_state t0 bpm wallNow fc hb m
  have hbc : beatCount bpm m = (⌈((m : ℚ) * (SCHEDULE_INTERVAL_MS / 1000)
      + LOOKAHEAD_MS / 1000 - 0.05) / (60 / bpm)⌉).toNat := by
    rw [beatCount, if_neg (by omega)]
  refine ⟨by rw [hbeats, hbc], by rw [hbeats, hbc]; simp, ?_⟩
  rw [hbeats, List.map_map]
  refine List.Nodup.map ?_ (List.nodup_range _)
  intro a b hab
  simp only [Function.comp_apply] at hab
  have h1 : (a : ℚ) * (60 / bpm) = (b : ℚ) * (60 / bpm) := by
    linarith
  have h2 : (a : ℚ) = b := mul_right_cancel₀ hint.ne' h1
  exact_mod_cast h2

/-- Witness for the amended run theorem: a single tick at BPM 120
schedules exactly the lead-in beat. -/
theorem run_beat_schedule_witness :
    (run engine0 (runEvs 0 120 0 fc0 1)).beats
        = (List.range ((⌈(((1 : ℕ) : ℚ) * (SCHEDULE_INTERVAL_MS / 1000) + LOOKAHEAD_MS / 1000
              - 0.05) / (60 / 120)⌉).toNat)).map
            (fun i : ℕ => ((0 : ℚ) + 0.05 + (i : ℚ) * (60 / 120), i)) ∧
      (run engine0 (runEvs 0 120 0 fc0 1)).beats.length
          = (⌈(((1 : ℕ) : ℚ) * (SCHEDULE_INTERVAL_MS / 1000) + LOOKAHEAD_MS / 1000 - 0.05)
              / (60 / 120)⌉).toNat ∧
      ((run engine0 (runEvs 0 120 0 fc0 1)).beats.map Prod.fst).Nodup :=
  run_beat_schedule 0 120 0 fc0 1 (by norm_num) le_rfl

/-- C5 counterexample: at BPM 240 (beat interval 0.25 s) a run of nine
25 ms ticks — wall-clock duration 0.225 s from `start()` to the last
tick — schedules 2 beats, while `⌊0.225 / 0.25⌋ = 0`: the scheduled
count exceeds `floor (duration / beatInterval) + 1`, refuting the
claimed ±1 bound; the 0.05 s lead-in and the 0.1 s lookahead let the
last tick schedule a beat lying beyond the elapsed duration. -/
theorem run_beat_count_counterexample :
    (run engine0 (runEvs 0 240 0 fc0 9)).beats.length = 2 ∧
      ⌊((9 : ℚ) * (SCHEDULE_INTERVAL_MS / 1000)) / (60 / 240)⌋ = 0 ∧
      1 < ((run engine0 (runEvs 0 240 0 fc0 9)).beats.length : ℤ)
          - ⌊((9 : ℚ) * (SCHEDULE_INTERVAL_MS / 1000)) / (60 / 240)⌋ := by
  obtain ⟨-, -, -, -, hbeats⟩ := run_state 0 240 0 fc0 (by norm_num) 9
  have hbc : beatCount 240 9 = 2 := by
    rw [beatCount, if_neg (by norm_num), SCHEDULE_INTERVAL_MS, LOOKAHEAD_MS]
    rw [show (((9 : ℕ) : ℚ) * ((25 : ℚ) / 1000) + (100 : ℚ) / 1000 - 0.05) / (60 / 240)
      = 11 / 10 by norm_num]
    rw [show ⌈(11 / 10 : ℚ)⌉ = 2 by rw [Int.ceil_eq_iff]; norm_num]
    rfl
  have hlen : (run engine0 (runEvs 0 240 0 fc0 9)).beats.length = 2 := by
    rw [hbeats, hbc]
    simp
  have hfl : ⌊((9 : ℚ) * (SCHEDULE_INTERVAL_MS / 1000)) / (60 / 240)⌋ = 0 := by
    rw [SCHEDULE_INTERVAL_MS,
      show ((9 : ℚ) * ((25 : ℚ) / 1000)) / (60 / 240) = 9 / 10 by norm_num]
    rw [Int.floor_eq_iff]
    norm_num
  exact ⟨hlen, hfl, by rw [hlen, hfl]; norm_num⟩

end Clapmaker
